import Mathlib

/-!
Verification of the core logic of `tfsdec_main.py` (neural-signal word
decoding pipeline): window extraction against stitch boundaries, the
weight-averaging training callback, ensemble prediction averaging,
per-fold result aggregation, vocabulary construction, and ensemble
model loading.

Numeric signal values and framework floats are modelled as rationals;
Python integer floor division is `Nat` division / `Int.fdiv`; a Python
exception is modelled as `Option.none`.
-/

set_option autoImplicit false

/-- A labeled word event: `onset` is a raw sample index, `word` the token.
Mirrors the label records consumed by `extract_signal_from_fold`. -/
structure LabelEvent where
  onset : Nat
  word : String
deriving DecidableEq, Repr

/-- Python slice `l[a:b]` for nonnegative `a`, `b`: elements `a..min(b,len)-1`. -/
def pySlice {α : Type} (l : List α) (a b : Nat) : List α :=
  (l.take b).drop a

/-- Models `(np.array(stitch_index) < bin_index).nonzero()[0][-1]` from line 279:
the largest position `j` with `stitch[j] < b`, or `none` (an `IndexError`)
when no entry is below `b`. -/
def nonzeroLtLast (stitch : List Nat) (b : Nat) : Option Nat :=
  ((List.range stitch.length).filter (fun j => stitch.getD j 0 < b)).getLast?

/-- One iteration of the event loop in `extract_signal_from_fold`
(lines 277-290). Result `none` models an uncaught exception
(`IndexError` from the segment lookup or from `stitch_index[bin_rank+1]`);
`some none` models a silently dropped event (`continue`); `some (some (x, w))`
is an accepted window paired with its word. -/
def processEvent (signals : List (List ℚ)) (stitch : List Nat) (lagBin : Int)
    (halfWindow : Nat) (ev : LabelEvent) : Option (Option (List (List ℚ) × String)) :=
  let b := ev.onset / 32
  match nonzeroLtLast stitch b with
  | none => none
  | some r =>
    match stitch.get? (r + 1) with
    | none => none
    | some t =>
      let s := stitch.getD r 0
      let left : Int := (b : Int) + lagBin - (halfWindow : Int)
      let right : Int := (b : Int) + lagBin + (halfWindow : Int)
      if left < (s : Int) ∨ right > (t : Int) then some none
      else some (some (pySlice signals left.toNat right.toNat, ev.word))

/-- The event loop of `extract_signal_from_fold`, accumulating the accepted
windows and words in input order; `none` propagates an exception. -/
def extractLoop (signals : List (List ℚ)) (stitch : List Nat) (lagBin : Int)
    (halfWindow : Nat) : List LabelEvent → Option (List (List (List ℚ)) × List String)
  | [] => some ([], [])
  | ev :: rest =>
    match processEvent signals stitch lagBin halfWindow ev with
    | none => none
    | some none => extractLoop signals stitch lagBin halfWindow rest
    | some (some xw) =>
      match extractLoop signals stitch lagBin halfWindow rest with
      | none => none
      | some (x, w) => some (xw.1 :: x, xw.2 :: w)

/-- Shape check performed by `np.stack(x, axis=0)` (line 292): it raises on an
empty list and on windows of differing shapes. -/
def npStackOk (x : List (List (List ℚ))) : Bool :=
  match x with
  | [] => false
  | m :: rest =>
    rest.all (fun m2 =>
      (m2.length == m.length) &&
      ((m2.zip m).all (fun rr => rr.1.length == rr.2.length)))

/-- Full model of `extract_signal_from_fold` (lines 271-295): `lag` is floor
divided by 32, each event is windowed or dropped against its stitch segment,
and the accepted windows are stacked (which raises if none were accepted). -/
def extract_signal_from_fold (signals : List (List ℚ)) (stitch : List Nat)
    (lag : Int) (halfWindow : Nat) (examples : List LabelEvent) :
    Option (List (List (List ℚ)) × List String) :=
  match extractLoop signals stitch (Int.fdiv lag 32) halfWindow examples with
  | none => none
  | some (x, w) => if npStackOk x then some (x, w) else none

/-- The acceptance test an event must pass to be windowed, phrased exactly as
the code computes it: segment lookup by the rightmost boundary strictly below
the coarse bin index, then both edges inside that segment. -/
def acceptEvent (stitch : List Nat) (lagBin : Int) (halfWindow : Nat)
    (ev : LabelEvent) : Bool :=
  let b := ev.onset / 32
  match nonzeroLtLast stitch b with
  | none => false
  | some r =>
    match stitch.get? (r + 1) with
    | none => false
    | some t =>
      let s := stitch.getD r 0
      let left : Int := (b : Int) + lagBin - (halfWindow : Int)
      let right : Int := (b : Int) + lagBin + (halfWindow : Int)
      !(decide (left < (s : Int) ∨ right > (t : Int)))

/-- The signal slice `signals[left_edge:right_edge, :]` an accepted event yields. -/
def windowOf (signals : List (List ℚ)) (lagBin : Int) (halfWindow : Nat)
    (ev : LabelEvent) : List (List ℚ) :=
  let b := ev.onset / 32
  let left : Int := (b : Int) + lagBin - (halfWindow : Int)
  let right : Int := (b : Int) + lagBin + (halfWindow : Int)
  pySlice signals left.toNat right.toNat

/-! ### WeightAverager (lines 210-238)

A parameter snapshot is modelled as a flat vector of rationals; `vadd` and
`vscale` are the broadcast elementwise numpy operations. -/

/-- Elementwise vector addition (numpy `+` on equal-shape weight arrays). -/
def vadd (a b : List ℚ) : List ℚ := List.zipWith (· + ·) a b

/-- Elementwise scalar multiplication (numpy broadcast `c * w`). -/
def vscale (c : ℚ) (a : List ℚ) : List ℚ := a.map (fun q => c * q)

/-- Sum of a list of vectors, folding left from the first element. -/
def vsum : List (List ℚ) → List ℚ
  | [] => []
  | a :: rest => rest.foldl vadd a

/-- Arithmetic mean of a nonempty list of equal-length vectors. -/
def vmean (xs : List (List ℚ)) : List ℚ :=
  vscale (1 / (xs.length : ℚ)) (vsum xs)

/-- Models `self.epoch_count = min(epoch_count, 2 * patience)` from
`WeightAverager.__init__` (line 215). -/
def wa_epoch_count (epoch_count patience : Nat) : Nat :=
  min epoch_count (2 * patience)

/-- Models `WeightAverager.on_epoch_end` (lines 222-226): evict the oldest
snapshot when `len(self.weights) == self.patience + self.epoch_count / 2`
(Python float division, modelled exactly as a rational), then append the
new snapshot. -/
def wa_on_epoch_end (patience epoch_count : Nat) (weights : List (List ℚ))
    (snap : List ℚ) : List (List ℚ) :=
  (if weights.length ≠ 0 ∧
      (weights.length : ℚ) = (patience : ℚ) + (epoch_count : ℚ) / 2
   then weights.drop 1 else weights) ++ [snap]

/-- The running-average loop body of `WeightAverager.on_train_end`
(lines 233-236): at 0-based index `p` the accumulator becomes
`(w * p + nw) / (p + 1)`, and the loop breaks once `p >= epoch_count`
after the update. Called with the accumulator after index `p - 1`. -/
def wa_loop (epoch_count : Nat) : List ℚ → Nat → List (List ℚ) → List ℚ
  | w, _, [] => w
  | w, p, nw :: rest =>
    if epoch_count ≤ p then
      vscale (1 / ((p : ℚ) + 1)) (vadd (vscale (p : ℚ) w) nw)
    else
      wa_loop epoch_count
        (vscale (1 / ((p : ℚ) + 1)) (vadd (vscale (p : ℚ) w) nw)) (p + 1) rest

/-- Models `WeightAverager.on_train_end` (lines 228-238): when snapshots were
retained, replace the model weights with the running average (the result);
`none` models the no-snapshot case where the model is left untouched.
The first iteration (`p = 0`) yields `(w * 0 + nw) / 1 = nw` by broadcast. -/
def wa_on_train_end (epoch_count : Nat) (weights : List (List ℚ)) :
    Option (List ℚ) :=
  match weights with
  | [] => none
  | nw :: rest =>
    if epoch_count ≤ 0 then some nw else some (wa_loop epoch_count nw 1 rest)

/-! ### Training-loop callback wiring (lines 406-430) -/

/-- The two callbacks the training branch constructs. -/
inductive TrainCallback where
  | stopper
  | averager
deriving DecidableEq, Repr

/-- Models the `callbacks` list built at lines 406-418: the early stopper is
appended when `patience > 0`, then the `WeightAverager` when
`n_weight_avg > 0`. -/
def callbacks_built (patience n_weight_avg : Nat) : List TrainCallback :=
  (if 0 < patience then [TrainCallback.stopper] else []) ++
  (if 0 < n_weight_avg then [TrainCallback.averager] else [])

/-- Models the `callbacks=[stopper]` argument actually passed to
`model2.fit` at line 429. -/
def callbacks_passed_to_fit (patience n_weight_avg : Nat) : List TrainCallback :=
  [TrainCallback.stopper]

/-! ### Ensemble prediction averaging (lines 482-489) -/

/-- Elementwise matrix addition (numpy `+` on equal-shape (e, c) arrays). -/
def matAdd (a b : List (List ℚ)) : List (List ℚ) :=
  List.zipWith (fun ra rb => List.zipWith (· + ·) ra rb) a b

/-- The `np.zeros((len(x_test), n_classes))` base of the prediction sum. -/
def matZeros (e c : Nat) : List (List ℚ) :=
  List.replicate e (List.replicate c 0)

/-- Elementwise scalar multiplication of a matrix. -/
def matScale (q : ℚ) (a : List (List ℚ)) : List (List ℚ) :=
  a.map (List.map (fun v => q * v))

/-- Models `np.average(predictions, axis=0)` over the stacked
`(len(models), e, c)` tensor filled at lines 486-489. -/
def np_average_axis0 (ps : List (List (List ℚ))) (e c : Nat) : List (List ℚ) :=
  matScale (1 / (ps.length : ℚ)) (ps.foldl matAdd (matZeros e c))

/-- Models the prediction branch at lines 483-489: one model's predictions are
used unchanged; several models' predictions are stacked and averaged over the
model axis; an empty model list never reaches this code (`none`). -/
def ensemble_predictions (ps : List (List (List ℚ))) (e c : Nat) :
    Option (List (List ℚ)) :=
  match ps with
  | [] => none
  | [p] => some p
  | _ => some (np_average_axis0 ps e c)

/-! ### Ensemble model loading (lines 441-450) -/

/-- Outcome of `tf.keras.models.load_model` on one artifact: the `try` either
yields a model or an exception message that is printed and swallowed. -/
inductive LoadResult (M : Type) where
  | ok (m : M)
  | failed (msg : String)
deriving DecidableEq, Repr

/-- The models accumulated by the `try/except` loop, in artifact order:
failures are logged and skipped. -/
def loaded_models {M : Type} : List (LoadResult M) → List M
  | [] => []
  | LoadResult.ok m :: rest => m :: loaded_models rest
  | LoadResult.failed _ :: rest => loaded_models rest

/-- Models the ensemble branch (lines 441-450): collect the loadable models,
then `assert len(models) > 0` — `none` is the fatal `AssertionError`. -/
def ensemble_assembly {M : Type} (rs : List (LoadResult M)) : Option (List M) :=
  if 0 < (loaded_models rs).length then some (loaded_models rs) else none

/-! ### Vocabulary construction (lines 349-354) -/

/-- Models `sorted(set(w_train.tolist()))`: the distinct training words in
increasing lexicographic order. -/
def sorted_vocab (ws : List String) : List String :=
  List.insertionSort (· ≤ ·) ws.dedup

/-- Models `word2index = {w: j for j, w in enumerate(sorted(set(...)))}` as an
association list from each distinct word to its position in sorted order. -/
def word2index (ws : List String) : List (String × Nat) :=
  (sorted_vocab ws).enum.map (fun jw => (jw.2, jw.1))

/-! ### Per-fold results aggregation (lines 556-560) -/

/-- A fold-result metric value: a scalar float or a tabular DataFrame,
the latter modelled as its list of rows. -/
inductive MetricValue where
  | scalar (q : ℚ)
  | table (rows : List (List ℚ))
deriving DecidableEq, Repr

/-- Python dict lookup `fr[k]` on a fold-result record; `none` is a `KeyError`. -/
def dictGet (k : String) : List (String × MetricValue) → Option MetricValue
  | [] => none
  | kv :: rest => if kv.1 = k then some kv.2 else dictGet k rest

/-- Maps `f` over a list, failing as a whole if any element fails
(the Python comprehension `[tr[metric] for tr in fold_results]` and the
aggregation loop both abort on the first exception). -/
def optMap {α β : Type} (f : α → Option β) : List α → Option (List β)
  | [] => some []
  | a :: l =>
    match f a, optMap f l with
    | some b, some bs => some (b :: bs)
    | _, _ => none

/-- Projection used by `np.mean` on a metric value: anything but a float
scalar raises. -/
def asScalar : MetricValue → Option ℚ
  | MetricValue.scalar q => some q
  | MetricValue.table _ => none

/-- Projection used by `pd.concat` on a metric value: anything but a
DataFrame raises. -/
def asTable : MetricValue → Option (List (List ℚ))
  | MetricValue.table r => some r
  | MetricValue.scalar _ => none

/-- Models `agg = pd.concat if isinstance(values[0], DataFrame) else np.mean`
applied to the per-fold values of one metric: tabular values are concatenated
row-wise, scalars are averaged; a type mismatch raises (`none`). -/
def aggValues (values : List MetricValue) : Option MetricValue :=
  match values with
  | [] => none
  | MetricValue.table _ :: _ =>
    (optMap asTable values).map (fun rs => MetricValue.table rs.flatten)
  | MetricValue.scalar _ :: _ =>
    (optMap asScalar values).map
      (fun qs => MetricValue.scalar (qs.sum / (qs.length : ℚ)))

/-- Models the aggregation loop at lines 556-560: iterate over the metric keys
of fold 0's record, gather each key's value from every fold, aggregate, and
store under `avg_` + key. `none` models any raised exception. -/
def aggregateFoldResults (foldResults : List (List (String × MetricValue))) :
    Option (List (String × MetricValue)) :=
  match foldResults with
  | [] => none
  | fr0 :: _ =>
    optMap (fun kv =>
      (optMap (fun fr => dictGet kv.1 fr) foldResults).bind
        (fun values => (aggValues values).map
          (fun v => (String.append "avg_" kv.1, v)))) fr0

/-! ## Helper lemmas -/

/-- The last index kept by filtering `range n` with `p` is the largest `k < n`
satisfying `p`. -/
lemma getLast?_filter_range (p : Nat → Bool) :
    ∀ n j, (((List.range n).filter p).getLast? = some j) ↔
      (j < n ∧ p j = true ∧ ∀ k, j < k → k < n → p k = false) := by
  intro n
  induction n with
  | zero => intro j; simp
  | succ n ih =>
    intro j
    rw [List.range_succ, List.filter_append]
    by_cases hp : p n
    · have hfil : List.filter p [n] = [n] := by simp [hp]
      rw [hfil, List.getLast?_concat]
      constructor
      · rintro h
        have hj : j = n := by injection h; omega
        refine ⟨by omega, ?_, fun k hk1 hk2 => absurd hk2 (by omega)⟩
        rw [hj]; exact hp
      · rintro ⟨h1, h2, h3⟩
        by_cases hjn : j = n
        · rw [hjn]
        · have hjlt : j < n := by omega
          have := h3 n hjlt (Nat.lt_succ_self n)
          rw [hp] at this
          exact absurd this (by simp)
    · have hfil : List.filter p [n] = [] := by simp [hp]
      rw [hfil, List.append_nil, ih]
      constructor
      · rintro ⟨h1, h2, h3⟩
        refine ⟨by omega, h2, fun k hk1 hk2 => ?_⟩
        by_cases hkn : k = n
        · subst hkn; exact Bool.eq_false_iff.mpr hp
        · exact h3 k hk1 (by omega)
      · rintro ⟨h1, h2, h3⟩
        have hjn : j ≠ n := by
          rintro rfl
          rw [h2] at hp
          exact hp rfl
        exact ⟨by omega, h2, fun k hk1 hk2 => h3 k hk1 (by omega)⟩

/-- When some boundary lies strictly below `b`, the numpy lookup succeeds and
returns the rightmost such position; all later boundaries are `≥ b`. -/
lemma nonzeroLtLast_spec (stitch : List Nat) (b : Nat) (j0 : Nat)
    (h0 : j0 < stitch.length) (hj0 : stitch.getD j0 0 < b) :
    ∃ r, nonzeroLtLast stitch b = some r ∧ r < stitch.length ∧
      stitch.getD r 0 < b ∧
      (∀ k, k < stitch.length → stitch.getD k 0 < b → k ≤ r) ∧
      (r + 1 < stitch.length → b ≤ stitch.getD (r + 1) 0) := by
  have hmem : j0 ∈ (List.range stitch.length).filter
      (fun j => stitch.getD j 0 < b) := by
    rw [List.mem_filter]
    exact ⟨List.mem_range.mpr h0, by simpa using hj0⟩
  have hne : (List.range stitch.length).filter
      (fun j => stitch.getD j 0 < b) ≠ [] := List.ne_nil_of_mem hmem
  have hsome := List.getLast?_isSome.mpr hne
  obtain ⟨r, hr⟩ := Option.isSome_iff_exists.mp hsome
  have hspec := (getLast?_filter_range (fun j => decide (stitch.getD j 0 < b))
      stitch.length r).mp hr
  obtain ⟨hrlen, hrp, hrmax⟩ := hspec
  refine ⟨r, hr, hrlen, of_decide_eq_true hrp, ?_, ?_⟩
  · intro k hk hkb
    by_contra hgt
    have h2 := hrmax k (by omega) hk
    rw [decide_eq_false_iff_not] at h2
    exact h2 hkb
  · intro hr1
    have h2 := hrmax (r + 1) (Nat.lt_succ_self r) hr1
    rw [decide_eq_false_iff_not] at h2
    exact Nat.le_of_not_lt h2

/-- No lookup can succeed for bin index 0: no `Nat` boundary is below 0. -/
lemma nonzeroLtLast_zero (stitch : List Nat) : nonzeroLtLast stitch 0 = none := by
  unfold nonzeroLtLast
  have : (List.range stitch.length).filter (fun j => stitch.getD j 0 < 0) = [] := by
    simp
  rw [this]
  rfl

/-- An event whose coarse bin index is 0 makes its own processing raise. -/
lemma processEvent_none_of_bin_zero (signals : List (List ℚ)) (stitch : List Nat)
    (lagBin : Int) (hw : Nat) (ev : LabelEvent) (hbin : ev.onset / 32 = 0) :
    processEvent signals stitch lagBin hw ev = none := by
  simp only [processEvent, hbin, nonzeroLtLast_zero]

/-- One raising event anywhere in the fold makes the whole loop raise. -/
lemma extractLoop_none_of_mem (signals : List (List ℚ)) (stitch : List Nat)
    (lagBin : Int) (hw : Nat) (ev : LabelEvent) :
    ∀ evs : List LabelEvent, ev ∈ evs →
      processEvent signals stitch lagBin hw ev = none →
      extractLoop signals stitch lagBin hw evs = none := by
  intro evs
  induction evs with
  | nil => intro h; exact absurd h (List.not_mem_nil ev)
  | cons e rest ih =>
    intro hmem hnone
    rcases List.mem_cons.mp hmem with heq | htail
    · subst heq
      unfold extractLoop
      rw [hnone]
    · unfold extractLoop
      cases hpe : processEvent signals stitch lagBin hw e with
      | none => rfl
      | some o =>
        cases o with
        | none => exact ih htail hnone
        | some xw =>
          rw [ih htail hnone]

/-- Interleaving a failed load changes nothing in the collected model list. -/
lemma loaded_models_append_failed {M : Type} (msg : String) :
    ∀ l1 l2 : List (LoadResult M),
      loaded_models (l1 ++ LoadResult.failed msg :: l2) = loaded_models (l1 ++ l2) := by
  intro l1 l2
  induction l1 with
  | nil => rfl
  | cons a l1 ih =>
    cases a with
    | ok m =>
      show m :: loaded_models (l1 ++ LoadResult.failed msg :: l2) =
        m :: loaded_models (l1 ++ l2)
      rw [ih]
    | failed m =>
      show loaded_models (l1 ++ LoadResult.failed msg :: l2) =
        loaded_models (l1 ++ l2)
      exact ih

/-- The collected model list is empty exactly when no artifact loaded. -/
lemma loaded_models_eq_nil_iff {M : Type} :
    ∀ rs : List (LoadResult M),
      loaded_models rs = [] ↔ ∀ m : M, LoadResult.ok m ∉ rs := by
  intro rs
  induction rs with
  | nil => simp [loaded_models]
  | cons a rest ih =>
    cases a with
    | ok m =>
      simp only [loaded_models]
      constructor
      · intro h; exact absurd h (List.cons_ne_nil _ _)
      · intro h; exact absurd (List.mem_cons_self _ _) (h m)
    | failed msg =>
      simp only [loaded_models, ih]
      constructor
      · intro h m hm
        rcases List.mem_cons.mp hm with heq | htail
        · exact absurd heq (by simp)
        · exact h m htail
      · intro h m hm
        exact h m (List.mem_cons_of_mem _ hm)

/-! ## Claims -/

/-- C10: extraction is partial at its interface: for any event whose coarse
bin index `onset // 32` equals 0, the segment lookup finds no stitch boundary
strictly below the bin index, and `extract_signal_from_fold` raises an
indexing error (modelled as `none`) instead of dropping or windowing the
event. -/
theorem c10_extract_raises_on_zero_bin (signals : List (List ℚ))
    (stitch : List Nat) (lag : Int) (hw : Nat) (evs : List LabelEvent)
    (ev : LabelEvent) (hmem : ev ∈ evs) (hbin : ev.onset / 32 = 0) :
    nonzeroLtLast stitch (ev.onset / 32) = none ∧
    extract_signal_from_fold signals stitch lag hw evs = none := by
  constructor
  · rw [hbin]; exact nonzeroLtLast_zero stitch
  · unfold extract_signal_from_fold
    rw [extractLoop_none_of_mem signals stitch (Int.fdiv lag 32) hw ev evs hmem
      (processEvent_none_of_bin_zero _ _ _ _ _ hbin)]

/-- Witness for C10 at a concrete input: one event with onset 5 (bin 0) makes
the whole extraction raise. -/
theorem c10_extract_raises_on_zero_bin_witness :
    nonzeroLtLast [0, 4] ((LabelEvent.mk 5 "w").onset / 32) = none ∧
    extract_signal_from_fold [[1], [1], [1], [1]] [0, 4] 0 1
      [LabelEvent.mk 5 "w"] = none :=
  c10_extract_raises_on_zero_bin [[1], [1], [1], [1]] [0, 4] 0 1
    [LabelEvent.mk 5 "w"] (LabelEvent.mk 5 "w") (by decide) (by decide)

/-- C2 counterexample: with boundaries `[0, 5, 10]` and bin index exactly 5,
the code's lookup returns position 0 (segment `[0, 5)`), although position 1
also satisfies `stitch[1] ≤ 5`; the claimed "rightmost boundary ≤ bin index"
rule would return position 1 and the segment starting at 5. -/
theorem c2_counterexample :
    nonzeroLtLast [0, 5, 10] 5 = some 0 ∧
    List.getD [0, 5, 10] 1 0 ≤ 5 ∧ ¬ (1 : Nat) ≤ 0 := by
  decide

/-- C2 (amended): the segment used for the acceptance test is located by the
rightmost stitch boundary strictly less than the event's bin index; a bin
index exactly equal to a boundary belongs to the segment ending at that
boundary (the next boundary is at least the bin index). -/
theorem c2_segment_lookup_strictly_below (stitch : List Nat) (b : Nat)
    (j0 : Nat) (h0 : j0 < stitch.length) (hj0 : stitch.getD j0 0 < b) :
    ∃ r, nonzeroLtLast stitch b = some r ∧ r < stitch.length ∧
      stitch.getD r 0 < b ∧
      (∀ k, k < stitch.length → stitch.getD k 0 < b → k ≤ r) ∧
      (r + 1 < stitch.length → b ≤ stitch.getD (r + 1) 0) :=
  nonzeroLtLast_spec stitch b j0 h0 hj0

/-- Witness for the amended C2 at boundaries `[0, 5, 10]` and bin index 5. -/
theorem c2_segment_lookup_strictly_below_witness :
    ∃ r, nonzeroLtLast [0, 5, 10] 5 = some r ∧ r < [0, 5, 10].length ∧
      List.getD [0, 5, 10] r 0 < 5 ∧
      (∀ k, k < [0, 5, 10].length → List.getD [0, 5, 10] k 0 < 5 → k ≤ r) ∧
      (r + 1 < [0, 5, 10].length → 5 ≤ List.getD [0, 5, 10] (r + 1) 0) :=
  c2_segment_lookup_strictly_below [0, 5, 10] 5 0 (by decide) (by decide)

/-- C3: code bug evidence. In train mode with weight averaging requested
(patience 150, n_weight_avg 10), the WeightAverager is appended to the
constructed `callbacks` list but is absent from the `callbacks=[stopper]`
argument actually given to `model2.fit`, so the training loop never invokes
it. -/
theorem c3_averager_not_passed_to_fit :
    TrainCallback.averager ∈ callbacks_built 150 10 ∧
    TrainCallback.averager ∉ callbacks_passed_to_fit 150 10 := by
  decide

/-- C9: a model artifact that fails to load is skipped while loading
continues (removing a failure from the artifact list changes nothing), the
run proceeds if and only if at least one model loads, and with zero loaded
models the assembly is fatal (`none`). -/
theorem c9_ensemble_loading (M : Type) (rs : List (LoadResult M)) :
    ((∃ ms, ensemble_assembly rs = some ms) ↔ (∃ m, LoadResult.ok m ∈ rs)) ∧
    (∀ l1 l2 : List (LoadResult M), ∀ msg : String,
      ensemble_assembly (l1 ++ LoadResult.failed msg :: l2) =
        ensemble_assembly (l1 ++ l2)) ∧
    ((∀ m : M, LoadResult.ok m ∉ rs) → ensemble_assembly rs = none) := by
  refine ⟨?_, ?_, ?_⟩
  · unfold ensemble_assembly
    constructor
    · rintro ⟨ms, hms⟩
      by_cases h : 0 < (loaded_models rs).length
      · have hne : loaded_models rs ≠ [] := by
          intro hnil; rw [hnil] at h; exact absurd h (by simp)
        by_contra hno
        push_neg at hno
        have : ∀ m : M, LoadResult.ok m ∉ rs := fun m hm => hno m hm
        exact hne ((loaded_models_eq_nil_iff rs).mpr this)
      · rw [if_neg h] at hms; exact absurd hms (by simp)
    · rintro ⟨m, hm⟩
      have hne : loaded_models rs ≠ [] := by
        intro hnil
        exact ((loaded_models_eq_nil_iff rs).mp hnil) m hm
      have hpos : 0 < (loaded_models rs).length := List.length_pos.mpr hne
      exact ⟨loaded_models rs, if_pos hpos⟩
  · intro l1 l2 msg
    unfold ensemble_assembly
    rw [loaded_models_append_failed]
  · intro h
    unfold ensemble_assembly
    have : loaded_models rs = [] := (loaded_models_eq_nil_iff rs).mpr h
    rw [this]
    rfl

/-- Witness for C9 on a concrete artifact list: one failure, one success. -/
theorem c9_ensemble_loading_witness :
    ((∃ ms, ensemble_assembly [LoadResult.failed "e", LoadResult.ok 5] = some ms) ↔
      (∃ m, LoadResult.ok m ∈ [LoadResult.failed "e", LoadResult.ok (5 : Nat)])) ∧
    (∀ l1 l2 : List (LoadResult Nat), ∀ msg : String,
      ensemble_assembly (l1 ++ LoadResult.failed msg :: l2) =
        ensemble_assembly (l1 ++ l2)) ∧
    ((∀ m : Nat, LoadResult.ok m ∉ [LoadResult.failed "e", LoadResult.ok 5]) →
      ensemble_assembly [LoadResult.failed "e", LoadResult.ok 5] = none) :=
  c9_ensemble_loading Nat [LoadResult.failed "e", LoadResult.ok 5]

/-- Composing two scalings multiplies the factors. -/
lemma vscale_vscale (a b : ℚ) (w : List ℚ) :
    vscale a (vscale b w) = vscale (a * b) w := by
  induction w with
  | nil => rfl
  | cons q w ih =>
    show a * (b * q) :: vscale a (vscale b w) = (a * b) * q :: vscale (a * b) w
    rw [← mul_assoc, ih]

/-- Scaling by 1 is the identity. -/
lemma vscale_one (w : List ℚ) : vscale 1 w = w := by
  simp [vscale]

/-- The running-average loop computes the mean of the consumed prefix:
starting from the mean of a `p`-element prefix with sum `S`, it returns the
mean of the first `min (p + rest.length) (epoch_count + 1)` snapshots. -/
lemma wa_loop_eq_mean (epoch_count : Nat) :
    ∀ (rest : List (List ℚ)) (S : List ℚ) (p : Nat), 1 ≤ p → p ≤ epoch_count →
      wa_loop epoch_count (vscale (1 / (p : ℚ)) S) p rest =
        vscale (1 / ((min (p + rest.length) (epoch_count + 1) : Nat) : ℚ))
          (List.foldl vadd S (rest.take (epoch_count + 1 - p))) := by
  intro rest
  induction rest with
  | nil =>
    intro S p h1 h2
    have hmin : min (p + ([] : List (List ℚ)).length) (epoch_count + 1) = p := by
      simp; omega
    rw [hmin]
    simp [wa_loop]
  | cons nw rest ih =>
    intro S p h1 h2
    have hS : vscale (p : ℚ) (vscale (1 / (p : ℚ)) S) = S := by
      rw [vscale_vscale]
      have hp0 : (p : ℚ) ≠ 0 := Nat.cast_ne_zero.mpr (by omega)
      have hp : (p : ℚ) * (1 / (p : ℚ)) = 1 := by field_simp
      rw [hp, vscale_one]
    have hcast : ((p : ℚ) + 1) = (((p + 1 : Nat)) : ℚ) := by push_cast; ring
    by_cases hbr : epoch_count ≤ p
    · have hpe : epoch_count = p := le_antisymm hbr h2
      subst hpe
      rw [wa_loop, if_pos (le_refl _), hS]
      have hmin : min (epoch_count + (nw :: rest).length) (epoch_count + 1) =
          epoch_count + 1 := by
        simp only [List.length_cons]
        omega
      have htake : epoch_count + 1 - epoch_count = 1 := by omega
      have htk1 : (nw :: rest).take 1 = [nw] := rfl
      have hfold : List.foldl vadd S [nw] = vadd S nw := rfl
      rw [hmin, htake, htk1, hfold, hcast]
    · have hplt : p < epoch_count := by omega
      rw [wa_loop, if_neg hbr, hS, hcast]
      have ihx := ih (vadd S nw) (p + 1) (by omega) (by omega)
      rw [ihx]
      have hmin : min (p + 1 + rest.length) (epoch_count + 1) =
          min (p + (nw :: rest).length) (epoch_count + 1) := by
        simp only [List.length_cons]
        omega
      have htake : (nw :: rest).take (epoch_count + 1 - p) =
          nw :: rest.take (epoch_count + 1 - (p + 1)) := by
        have h3 : epoch_count + 1 - p = (epoch_count + 1 - (p + 1)) + 1 := by omega
        rw [h3, List.take_succ_cons]
      rw [hmin, htake]
      rfl

/-- C4 counterexample: with `epoch_count = 1` and three retained snapshots
`[0], [2], [100]`, the loop averages the two oldest (`(0 + 2) / 2 = 1`),
not `min(3, 1) = 1` snapshot as claimed (which would give `0`). -/
theorem c4_counterexample :
    wa_on_train_end 1 [[0], [2], [100]] = some [1] ∧
    vmean (List.take 1 [[(0 : ℚ)], [2], [100]]) = [0] ∧
    ([1] : List ℚ) ≠ [0] := by
  refine ⟨?_, ?_, by norm_num⟩
  · norm_num [wa_on_train_end, wa_loop, vadd, vscale]
  · norm_num [vmean, vsum, vscale]

/-- C4 (amended): at training end the averaged value equals the cumulative
arithmetic mean, oldest-first in arrival order, of the first
`min(k, epoch_count + 1)` retained snapshots — one more than the claimed
`min(k, epoch_count)`, because the loop breaks only after processing index
`epoch_count`. -/
theorem c4_weight_average_mean (epoch_count : Nat) (ws : List (List ℚ))
    (v : List ℚ) (h : wa_on_train_end epoch_count ws = some v) :
    v = vmean (ws.take (epoch_count + 1)) ∧
    (ws.take (epoch_count + 1)).length = min ws.length (epoch_count + 1) := by
  constructor
  · cases ws with
    | nil => exact absurd h (by simp [wa_on_train_end])
    | cons nw rest =>
      by_cases hec : epoch_count ≤ 0
      · have hec0 : epoch_count = 0 := by omega
        subst hec0
        rw [wa_on_train_end, if_pos (le_refl 0)] at h
        have hv : v = nw := by
          injection h with h2
          exact h2.symm
        rw [hv]
        have ht1 : (nw :: rest).take (0 + 1) = [nw] := rfl
        rw [ht1]
        norm_num [vmean, vsum, vscale_one]
      · rw [wa_on_train_end, if_neg hec] at h
        have hv : v = wa_loop epoch_count nw 1 rest := by
          injection h with h2
          exact h2.symm
        rw [hv]
        have hm := wa_loop_eq_mean epoch_count rest nw 1 (le_refl 1) (by omega)
        rw [Nat.cast_one, show (1 : ℚ) / 1 = 1 from by norm_num, vscale_one] at hm
        rw [hm]
        have hidx : epoch_count + 1 - 1 = epoch_count := by omega
        have hcount : min (1 + rest.length) (epoch_count + 1) =
            (rest.take epoch_count).length + 1 := by
          rw [List.length_take]
          omega
        rw [hidx, hcount, List.take_succ_cons]
        simp only [vmean, vsum, List.length_cons]
  · rw [List.length_take]
    omega

/-- Witness for the amended C4: with `epoch_count = 2` and four snapshots the
result `(0 + 2 + 100) / 3 = 34` is the mean of the three oldest. -/
theorem c4_weight_average_mean_witness :
    ([34] : List ℚ) = vmean (List.take (2 + 1) [[(0 : ℚ)], [2], [100], [5]]) ∧
    (List.take (2 + 1) [[(0 : ℚ)], [2], [100], [5]]).length =
      min ([[(0 : ℚ)], [2], [100], [5]].length) (2 + 1) :=
  c4_weight_average_mean 2 [[0], [2], [100], [5]] [34]
    (by norm_num [wa_on_train_end, wa_loop, vadd, vscale])

/-- C5 counterexample: with `patience = 1` and odd `epoch_count = 1`, two
epoch ends starting from an empty snapshot list produce a list of length 2,
exceeding the claimed cap `patience + epoch_count / 2 = 1.5` — the eviction
equality `len == patience + epoch_count / 2` can never hold for odd
`epoch_count`, so the list grows without bound. -/
theorem c5_counterexample :
    (wa_on_epoch_end 1 1 (wa_on_epoch_end 1 1 [] [0]) [0]).length = 2 ∧
    ¬ ((2 : ℚ) ≤ (1 : ℚ) + (1 : ℚ) / 2) := by
  constructor
  · norm_num [wa_on_epoch_end]
  · norm_num

/-- C5 (amended): for even `epoch_count` with `patience + epoch_count / 2 ≥ 1`
the snapshot list is a bounded sliding window: one epoch end keeps the length
within `patience + epoch_count / 2`, and at the cap the oldest snapshot is
evicted before appending. (For odd `epoch_count` the eviction test never
fires; see the counterexample.) -/
theorem c5_retention_cap_even (patience epoch_count : Nat)
    (heven : epoch_count % 2 = 0) (hcap : 1 ≤ patience + epoch_count / 2)
    (weights : List (List ℚ)) (snap : List ℚ)
    (hlen : weights.length ≤ patience + epoch_count / 2) :
    (wa_on_epoch_end patience epoch_count weights snap).length ≤
      patience + epoch_count / 2 ∧
    (weights.length = patience + epoch_count / 2 →
      wa_on_epoch_end patience epoch_count weights snap =
        weights.drop 1 ++ [snap]) := by
  obtain ⟨m, hm⟩ : ∃ m, epoch_count = 2 * m := ⟨epoch_count / 2, by omega⟩
  subst hm
  have hdiv : 2 * m / 2 = m := by omega
  rw [hdiv] at hcap hlen ⊢
  have hcond : ∀ L : Nat, ((L : ℚ) = (patience : ℚ) + ((2 * m : Nat) : ℚ) / 2) ↔
      L = patience + m := by
    intro L
    constructor
    · intro hq
      have hq2 : (L : ℚ) = ((patience + m : Nat) : ℚ) := by
        rw [hq]; push_cast; ring
      exact_mod_cast hq2
    · intro hn
      rw [hn]; push_cast; ring
  constructor
  · by_cases hc : weights.length = patience + m
    · have hne : weights.length ≠ 0 := by omega
      rw [wa_on_epoch_end, if_pos ⟨hne, (hcond weights.length).mpr hc⟩]
      simp only [List.length_append, List.length_drop, List.length_cons,
        List.length_nil]
      omega
    · rw [wa_on_epoch_end, if_neg]
      · simp only [List.length_append, List.length_cons, List.length_nil]
        omega
      · rintro ⟨hne, heq⟩
        exact hc ((hcond weights.length).mp heq)
  · intro hc
    have hne : weights.length ≠ 0 := by omega
    rw [wa_on_epoch_end, if_pos ⟨hne, (hcond weights.length).mpr hc⟩]

/-- Witness for the amended C5: `patience = 1`, `epoch_count = 2` (cap 2),
at the cap the oldest of two snapshots is dropped before appending. -/
theorem c5_retention_cap_even_witness :
    ((wa_on_epoch_end 1 2 [[1], [2]] [3]).length ≤ 1 + 2 / 2) ∧
    (([[1], [2]] : List (List ℚ)).length = 1 + 2 / 2 →
      wa_on_epoch_end 1 2 [[1], [2]] [3] =
        ([[1], [2]] : List (List ℚ)).drop 1 ++ [[3]]) :=
  c5_retention_cap_even 1 2 (by decide) (by decide) [[1], [2]] [3] (by decide)

/-- C8: the vocabulary is the sorted distinct set of training words with
indices assigned in sorted order: it is duplicate-free, strictly increasing,
contains exactly the training words, its index column is `0..|W|-1` in order
(a bijection onto the initial segment), and rebuilding it from any word list
with the same membership yields the identical mapping. -/
theorem c8_vocabulary (ws : List String) :
    (sorted_vocab ws).Nodup ∧
    List.Sorted (· < ·) (sorted_vocab ws) ∧
    (∀ w, w ∈ sorted_vocab ws ↔ w ∈ ws) ∧
    (word2index ws).map Prod.fst = sorted_vocab ws ∧
    (word2index ws).map Prod.snd = List.range (sorted_vocab ws).length ∧
    (∀ ws' : List String, (∀ w, w ∈ ws ↔ w ∈ ws') →
      sorted_vocab ws = sorted_vocab ws') := by
  have hperm : (sorted_vocab ws).Perm ws.dedup := List.perm_insertionSort _ _
  have hnodup : (sorted_vocab ws).Nodup :=
    hperm.nodup_iff.mpr (List.nodup_dedup ws)
  have hsorted_le : List.Sorted (· ≤ ·) (sorted_vocab ws) :=
    List.sorted_insertionSort _ _
  have hmem : ∀ w, w ∈ sorted_vocab ws ↔ w ∈ ws := fun w =>
    (hperm.mem_iff).trans List.mem_dedup
  refine ⟨hnodup, hsorted_le.lt_of_le hnodup, hmem, ?_, ?_, ?_⟩
  · rw [word2index, List.map_map]
    have hcomp : (Prod.fst ∘ fun jw : Nat × String => (jw.2, jw.1)) =
        Prod.snd := rfl
    rw [hcomp, List.enum_map_snd]
  · rw [word2index, List.map_map]
    have hcomp : (Prod.snd ∘ fun jw : Nat × String => (jw.2, jw.1)) =
        Prod.fst := rfl
    rw [hcomp, List.enum_map_fst]
  · intro ws' hsame
    have hperm' : (sorted_vocab ws').Perm ws'.dedup := List.perm_insertionSort _ _
    have hnodup' : (sorted_vocab ws').Nodup :=
      hperm'.nodup_iff.mpr (List.nodup_dedup ws')
    have hsorted' : List.Sorted (· ≤ ·) (sorted_vocab ws') :=
      List.sorted_insertionSort _ _
    have hmem' : ∀ w, w ∈ sorted_vocab ws' ↔ w ∈ ws' := fun w =>
      (hperm'.mem_iff).trans List.mem_dedup
    have hp : (sorted_vocab ws).Perm (sorted_vocab ws') :=
      (List.perm_ext_iff_of_nodup hnodup hnodup').mpr
        (fun a => (hmem a).trans ((hsame a).trans (hmem' a).symm))
    exact List.eq_of_perm_of_sorted hp hsorted_le hsorted'

/-- Witness for C8: rebuilding the vocabulary from a reordered, reduplicated
word list with the same membership gives the identical sorted vocabulary. -/
theorem c8_vocabulary_witness :
    sorted_vocab ["b", "a", "b"] = sorted_vocab ["a", "b"] :=
  (c8_vocabulary ["b", "a", "b"]).2.2.2.2.2 ["a", "b"] (by
    intro w
    simp only [List.mem_cons, List.not_mem_nil, or_false]
    tauto)

/-- Entry accessor for a prediction matrix (defaults outside the shape). -/
def matEntry (m : List (List ℚ)) (i j : Nat) : ℚ := (m.getD i []).getD j 0

/-- A matrix has shape `(e, c)`: `e` rows, each of length `c`. -/
def matShape (m : List (List ℚ)) (e c : Nat) : Prop :=
  m.length = e ∧ ∀ row ∈ m, row.length = c

/-- An in-range `getD` is a member of the list. -/
lemma getD_mem {α : Type} (l : List α) (d : α) (i : Nat) (h : i < l.length) :
    l.getD i d ∈ l := by
  rw [List.getD_eq_getElem?_getD, List.getElem?_eq_getElem h, Option.getD_some]
  exact List.getElem_mem h

/-- Entry of an elementwise vector sum (equal lengths, index in range). -/
lemma vadd_getD : ∀ (a b : List ℚ), a.length = b.length → ∀ j, j < a.length →
    (List.zipWith (· + ·) a b).getD j 0 = a.getD j 0 + b.getD j 0 := by
  intro a
  induction a with
  | nil => intro b h j hj; exact absurd hj (by simp)
  | cons x a ih =>
    intro b h j hj
    cases b with
    | nil => simp at h
    | cons y b =>
      cases j with
      | zero => rfl
      | succ j =>
        have hx := ih b (by simpa using h) j (by simpa using hj)
        simpa using hx

/-- Row extraction through `matAdd` commutes with `getD`. -/
lemma matAdd_getD_row : ∀ (a b : List (List ℚ)) (i : Nat),
    (matAdd a b).getD i [] =
      List.zipWith (· + ·) (a.getD i []) (b.getD i []) := by
  intro a
  induction a with
  | nil => intro b i; cases b <;> simp [matAdd]
  | cons ra a ih =>
    intro b i
    cases b with
    | nil => simp [matAdd]
    | cons rb b =>
      cases i with
      | zero => rfl
      | succ i => simpa [matAdd] using ih b i

/-- Rows of `matAdd` of two matrices with row length `c` have row length `c`. -/
lemma matAdd_rows : ∀ (a b : List (List ℚ)) (c : Nat),
    (∀ row ∈ a, row.length = c) → (∀ row ∈ b, row.length = c) →
    ∀ row ∈ matAdd a b, row.length = c := by
  intro a
  induction a with
  | nil => intro b c _ _ row hrow; simp [matAdd] at hrow
  | cons ra a ih =>
    intro b c hra hb row hrow
    cases b with
    | nil => simp [matAdd] at hrow
    | cons rb b =>
      rw [matAdd, List.zipWith_cons_cons] at hrow
      rcases List.mem_cons.mp hrow with heq | htail
      · rw [heq, List.length_zipWith,
          hra ra (List.mem_cons_self _ _), hb rb (List.mem_cons_self _ _)]
        omega
      · exact ih b c (fun r hr => hra r (List.mem_cons_of_mem _ hr))
          (fun r hr => hb r (List.mem_cons_of_mem _ hr)) row htail

/-- `matAdd` preserves shape. -/
lemma matAdd_shape {a b : List (List ℚ)} {e c : Nat}
    (ha : matShape a e c) (hb : matShape b e c) : matShape (matAdd a b) e c := by
  constructor
  · rw [matAdd, List.length_zipWith, ha.1, hb.1]
    omega
  · exact matAdd_rows a b c ha.2 hb.2

/-- Entry of `matAdd` is the sum of the entries (shapes equal, index in
range). -/
lemma matAdd_entry (a b : List (List ℚ)) (i j : Nat) {e c : Nat}
    (hi : i < e) (hj : j < c) (ha : matShape a e c) (hb : matShape b e c) :
    matEntry (matAdd a b) i j = matEntry a i j + matEntry b i j := by
  have hrowa : (a.getD i []).length = c :=
    ha.2 _ (getD_mem a [] i (by rw [ha.1]; exact hi))
  have hrowb : (b.getD i []).length = c :=
    hb.2 _ (getD_mem b [] i (by rw [hb.1]; exact hi))
  rw [matEntry, matAdd_getD_row,
    vadd_getD _ _ (by rw [hrowa, hrowb]) j (by rw [hrowa]; exact hj)]
  rfl

/-- An in-range entry of a replicate list is the replicated element. -/
lemma getD_replicate {α : Type} (d a : α) : ∀ (n i : Nat), i < n →
    (List.replicate n a).getD i d = a := by
  intro n
  induction n with
  | zero => intro i h; omega
  | succ n ih =>
    intro i h
    cases i with
    | zero => rfl
    | succ i =>
      have hx := ih i (by omega)
      simpa [List.replicate_succ] using hx

/-- The zero matrix has shape `(e, c)` and zero entries. -/
lemma matZeros_shape (e c : Nat) : matShape (matZeros e c) e c := by
  constructor
  · simp [matZeros]
  · intro row hrow
    rw [List.eq_of_mem_replicate hrow]
    simp

/-- All in-range entries of the zero matrix are 0. -/
lemma matZeros_entry (e c : Nat) (i j : Nat) (hi : i < e) (hj : j < c) :
    matEntry (matZeros e c) i j = 0 := by
  rw [matEntry, matZeros, getD_replicate _ _ _ _ hi, getD_replicate _ _ _ _ hj]

/-- The fold of `matAdd` over the prediction stack: shape is preserved and
each entry is the entry of the accumulator plus the sum over models. -/
lemma foldl_matAdd_spec (e c : Nat) :
    ∀ (ps : List (List (List ℚ))) (acc : List (List ℚ)),
      matShape acc e c → (∀ p ∈ ps, matShape p e c) →
      matShape (ps.foldl matAdd acc) e c ∧
      ∀ i j, i < e → j < c →
        matEntry (ps.foldl matAdd acc) i j =
          matEntry acc i j + (ps.map (fun p => matEntry p i j)).sum := by
  intro ps
  induction ps with
  | nil =>
    intro acc hacc _
    exact ⟨hacc, fun i j _ _ => by simp⟩
  | cons p ps ih =>
    intro acc hacc hps
    have hp : matShape p e c := hps p (List.mem_cons_self _ _)
    have hadd : matShape (matAdd acc p) e c := matAdd_shape hacc hp
    have ihx := ih (matAdd acc p) hadd
      (fun q hq => hps q (List.mem_cons_of_mem _ hq))
    refine ⟨ihx.1, fun i j hi hj => ?_⟩
    rw [List.foldl_cons, ihx.2 i j hi hj, matAdd_entry acc p i j hi hj hacc hp,
      List.map_cons, List.sum_cons]
    ring

/-- Entry of a scaled row (index in range or not: both sides default to 0
scaled). -/
lemma map_mul_getD (q : ℚ) : ∀ (row : List ℚ) (j : Nat),
    (row.map (fun v => q * v)).getD j 0 = q * row.getD j 0 := by
  intro row
  induction row with
  | nil => intro j; simp
  | cons x row ih =>
    intro j
    cases j with
    | zero => rfl
    | succ j => simpa using ih j

/-- Row extraction through `matScale` commutes with `getD`. -/
lemma matScale_getD_row (q : ℚ) : ∀ (a : List (List ℚ)) (i : Nat),
    (matScale q a).getD i [] = (a.getD i []).map (fun v => q * v) := by
  intro a
  induction a with
  | nil => intro i; simp [matScale]
  | cons ra a ih =>
    intro i
    cases i with
    | zero => rfl
    | succ i => simpa [matScale] using ih i

/-- `matScale` preserves shape. -/
lemma matScale_shape {a : List (List ℚ)} {e c : Nat} (q : ℚ)
    (ha : matShape a e c) : matShape (matScale q a) e c := by
  constructor
  · rw [matScale, List.length_map]
    exact ha.1
  · intro row hrow
    rw [matScale] at hrow
    obtain ⟨r, hr, hrow2⟩ := List.mem_map.mp hrow
    rw [← hrow2, List.length_map]
    exact ha.2 r hr

/-- C6: the ensemble prediction over `N ≥ 1` model prediction matrices of
shape `(examples, classes)` exists, preserves the shape, equals the
element-wise unweighted arithmetic mean over the model axis, and for `N = 1`
is the identity on the single model's predictions. -/
theorem c6_ensemble_predictions_mean (ps : List (List (List ℚ))) (e c : Nat)
    (hne : ps ≠ []) (hshape : ∀ p ∈ ps, matShape p e c) :
    ∃ q, ensemble_predictions ps e c = some q ∧
      matShape q e c ∧
      (∀ i j, i < e → j < c →
        matEntry q i j =
          (ps.map (fun p => matEntry p i j)).sum / (ps.length : ℚ)) ∧
      (∀ p, ps = [p] → q = p) := by
  cases ps with
  | nil => exact absurd rfl hne
  | cons p rest =>
    cases rest with
    | nil =>
      refine ⟨p, rfl, hshape p (List.mem_cons_self _ _), ?_, ?_⟩
      · intro i j hi hj
        simp only [List.map_cons, List.map_nil, List.sum_cons, List.sum_nil,
          List.length_cons, List.length_nil]
        norm_num
      · intro p2 hp2
        cases hp2
        rfl
    | cons p2 rest2 =>
      have hzero : matShape (matZeros e c) e c := matZeros_shape e c
      have hfold := foldl_matAdd_spec e c (p :: p2 :: rest2) (matZeros e c)
        hzero hshape
      refine ⟨np_average_axis0 (p :: p2 :: rest2) e c, rfl,
        matScale_shape _ hfold.1, ?_, ?_⟩
      · intro i j hi hj
        rw [np_average_axis0, matEntry, matScale_getD_row]
        have hrow := map_mul_getD (1 / ((p :: p2 :: rest2).length : ℚ))
          (((p :: p2 :: rest2).foldl matAdd (matZeros e c)).getD i []) j
        rw [hrow]
        have hent := hfold.2 i j hi hj
        rw [matEntry] at hent
        rw [hent, matZeros_entry e c i j hi hj]
        ring
      · intro p3 hp3
        simp at hp3

/-- Witness for C6: two 1-by-2 prediction matrices; their ensemble is the
element-wise mean. -/
theorem c6_ensemble_predictions_mean_witness :
    ∃ q, ensemble_predictions [[[(1 : ℚ), 3]], [[3, 5]]] 1 2 = some q ∧
      matShape q 1 2 ∧
      (∀ i j, i < 1 → j < 2 →
        matEntry q i j =
          (([[[(1 : ℚ), 3]], [[3, 5]]].map (fun p => matEntry p i j)).sum) /
            (([[[(1 : ℚ), 3]], [[3, 5]]] : List (List (List ℚ))).length : ℚ)) ∧
      (∀ p, [[[(1 : ℚ), 3]], [[3, 5]]] = [p] → q = p) :=
  c6_ensemble_predictions_mean [[[(1 : ℚ), 3]], [[3, 5]]] 1 2
    (by decide)
    (by
      intro p hp
      rcases List.mem_cons.mp hp with h | h
      · rw [h]; exact ⟨rfl, by decide⟩
      · rw [List.mem_singleton.mp h]; exact ⟨rfl, by decide⟩)

/-- A successful `optMap` has the input's length and succeeds pointwise. -/
lemma optMap_some_spec {α β : Type} (f : α → Option β) (da : α) (db : β) :
    ∀ (l : List α) (s : List β), optMap f l = some s →
      s.length = l.length ∧
      ∀ i, i < l.length → f (l.getD i da) = some (s.getD i db) := by
  intro l
  induction l with
  | nil =>
    intro s h
    have hs : some ([] : List β) = some s := h
    have hs2 : s = [] := by injection hs with h2; exact h2.symm
    subst hs2
    exact ⟨rfl, fun i hi => absurd hi (by simp)⟩
  | cons a l ih =>
    intro s h
    cases hfa : f a with
    | none =>
      simp only [optMap, hfa] at h
      exact absurd h (by simp)
    | some b =>
      cases hol : optMap f l with
      | none =>
        simp only [optMap, hfa, hol] at h
        exact absurd h (by simp)
      | some bs =>
        simp only [optMap, hfa, hol, Option.some.injEq] at h
        subst h
        obtain ⟨hlen, hidx⟩ := ih bs hol
        refine ⟨by simp [hlen], fun i hi => ?_⟩
        cases i with
        | zero => simpa using hfa
        | succ i =>
          have hx := hidx i (by simpa using hi)
          simpa using hx

/-- `optMap` of a pointwise section succeeds with the original list. -/
lemma optMap_map_section {α β : Type} (f : α → Option β) (g : β → α)
    (hfg : ∀ b, f (g b) = some b) : ∀ l : List β, optMap f (l.map g) = some l := by
  intro l
  induction l with
  | nil => rfl
  | cons b l ih =>
    rw [List.map_cons]
    simp only [optMap, hfg b, ih]

/-- Unfolding equation of `aggValues` at a scalar head. -/
lemma aggValues_scalar_cons (q : ℚ) (rest : List MetricValue) :
    aggValues (MetricValue.scalar q :: rest) =
      (optMap asScalar (MetricValue.scalar q :: rest)).map
        (fun qs => MetricValue.scalar (qs.sum / (qs.length : ℚ))) := rfl

/-- Unfolding equation of `aggValues` at a table head. -/
lemma aggValues_table_cons (r : List (List ℚ)) (rest : List MetricValue) :
    aggValues (MetricValue.table r :: rest) =
      (optMap asTable (MetricValue.table r :: rest)).map
        (fun rs => MetricValue.table rs.flatten) := rfl

/-- On an all-scalar nonempty value list the aggregation is `np.mean`. -/
lemma aggValues_scalars (qs : List ℚ) (hqs : qs ≠ []) :
    aggValues (qs.map MetricValue.scalar) =
      some (MetricValue.scalar (qs.sum / (qs.length : ℚ))) := by
  cases qs with
  | nil => exact absurd rfl hqs
  | cons q qs =>
    rw [List.map_cons, aggValues_scalar_cons, ← List.map_cons,
      optMap_map_section asScalar MetricValue.scalar (fun b => rfl)]
    rfl

/-- On an all-table nonempty value list the aggregation is `pd.concat`. -/
lemma aggValues_tables (ts : List (List (List ℚ))) (hts : ts ≠ []) :
    aggValues (ts.map MetricValue.table) =
      some (MetricValue.table ts.flatten) := by
  cases ts with
  | nil => exact absurd rfl hts
  | cons t ts =>
    rw [List.map_cons, aggValues_table_cons, ← List.map_cons,
      optMap_map_section asTable MetricValue.table (fun b => rfl)]
    rfl

/-- C7: a successful results aggregation iterates exactly over fold 0's
metric keys (same count, each output key is `avg_` + the fold-0 key in
order); a metric whose per-fold values are scalars is aggregated to their
arithmetic mean, a tabular metric to the row-preserving concatenation, and
when all K folds hold the same scalar the mean equals that value. -/
theorem c7_results_aggregation (fr0 : List (String × MetricValue))
    (rest : List (List (String × MetricValue)))
    (s : List (String × MetricValue))
    (h : aggregateFoldResults (fr0 :: rest) = some s) :
    s.length = fr0.length ∧
    (∀ i, i < fr0.length →
      (s.getD i ("", MetricValue.scalar 0)).1 =
        String.append "avg_" (fr0.getD i ("", MetricValue.scalar 0)).1) ∧
    (∀ i, i < fr0.length → ∀ qs : List ℚ,
      optMap (fun fr => dictGet (fr0.getD i ("", MetricValue.scalar 0)).1 fr)
          (fr0 :: rest) = some (qs.map MetricValue.scalar) →
      (s.getD i ("", MetricValue.scalar 0)).2 =
        MetricValue.scalar (qs.sum / (qs.length : ℚ))) ∧
    (∀ i, i < fr0.length → ∀ ts : List (List (List ℚ)),
      optMap (fun fr => dictGet (fr0.getD i ("", MetricValue.scalar 0)).1 fr)
          (fr0 :: rest) = some (ts.map MetricValue.table) →
      (s.getD i ("", MetricValue.scalar 0)).2 = MetricValue.table ts.flatten) ∧
    (∀ i, i < fr0.length → ∀ q : ℚ,
      optMap (fun fr => dictGet (fr0.getD i ("", MetricValue.scalar 0)).1 fr)
          (fr0 :: rest) =
        some (List.replicate (rest.length + 1) (MetricValue.scalar q)) →
      (s.getD i ("", MetricValue.scalar 0)).2 = MetricValue.scalar q) := by
  have h2 : optMap (fun kv : String × MetricValue =>
      (optMap (fun fr => dictGet kv.1 fr) (fr0 :: rest)).bind
        (fun values => (aggValues values).map
          (fun v => (String.append "avg_" kv.1, v)))) fr0 = some s := h
  obtain ⟨hlen, hidx⟩ := optMap_some_spec _
    ("", MetricValue.scalar 0) ("", MetricValue.scalar 0) fr0 s h2
  have key : ∀ i, i < fr0.length → ∃ values v,
      optMap (fun fr => dictGet (fr0.getD i ("", MetricValue.scalar 0)).1 fr)
        (fr0 :: rest) = some values ∧
      aggValues values = some v ∧
      s.getD i ("", MetricValue.scalar 0) =
        (String.append "avg_" (fr0.getD i ("", MetricValue.scalar 0)).1, v) := by
    intro i hi
    have hx := hidx i hi
    simp only [Option.bind_eq_some, Option.map_eq_some'] at hx
    obtain ⟨values, hvals, v, hv, hsi⟩ := hx
    exact ⟨values, v, hvals, hv, hsi.symm⟩
  have hscalar : ∀ i, i < fr0.length → ∀ qs : List ℚ,
      optMap (fun fr => dictGet (fr0.getD i ("", MetricValue.scalar 0)).1 fr)
          (fr0 :: rest) = some (qs.map MetricValue.scalar) →
      (s.getD i ("", MetricValue.scalar 0)).2 =
        MetricValue.scalar (qs.sum / (qs.length : ℚ)) := by
    intro i hi qs hqs
    obtain ⟨values, v, hvals, hv, hsi⟩ := key i hi
    have hveq : values = qs.map MetricValue.scalar :=
      Option.some.inj (hvals.symm.trans hqs)
    subst hveq
    have hqs_ne : qs ≠ [] := by
      rintro rfl
      rw [List.map_nil] at hv
      exact absurd hv (by simp [aggValues])
    rw [aggValues_scalars qs hqs_ne] at hv
    have hveq2 : v = MetricValue.scalar (qs.sum / (qs.length : ℚ)) :=
      (Option.some.inj hv).symm
    rw [hsi, hveq2]
  refine ⟨hlen, ?_, hscalar, ?_, ?_⟩
  · intro i hi
    obtain ⟨values, v, _, _, hsi⟩ := key i hi
    rw [hsi]
  · intro i hi ts hts
    obtain ⟨values, v, hvals, hv, hsi⟩ := key i hi
    have hveq : values = ts.map MetricValue.table :=
      Option.some.inj (hvals.symm.trans hts)
    subst hveq
    have hts_ne : ts ≠ [] := by
      rintro rfl
      rw [List.map_nil] at hv
      exact absurd hv (by simp [aggValues])
    rw [aggValues_tables ts hts_ne] at hv
    have hveq2 : v = MetricValue.table ts.flatten := (Option.some.inj hv).symm
    rw [hsi, hveq2]
  · intro i hi q hrep
    have hmap : List.replicate (rest.length + 1) (MetricValue.scalar q) =
        (List.replicate (rest.length + 1) q).map MetricValue.scalar :=
      (List.map_replicate).symm
    rw [hmap] at hrep
    have hx := hscalar i hi (List.replicate (rest.length + 1) q) hrep
    rw [hx]
    have hsum : (List.replicate (rest.length + 1) q).sum =
        ((rest.length + 1 : Nat) : ℚ) * q := by
      rw [List.sum_replicate, nsmul_eq_mul]
    have hlen2 : ((List.replicate (rest.length + 1) q).length : ℚ) =
        ((rest.length + 1 : Nat) : ℚ) := by
      rw [List.length_replicate]
    have hne : ((rest.length + 1 : Nat) : ℚ) ≠ 0 :=
      Nat.cast_ne_zero.mpr (Nat.succ_ne_zero rest.length)
    rw [hsum, hlen2, mul_div_cancel_left₀ q hne]

/-- Witness for C7: two folds with one scalar metric key; the summary has
fold 0's single key prefixed `avg_` and the value is the mean `(1+3)/2`. -/
theorem c7_results_aggregation_witness :
    ([(String.append "avg_" "a", MetricValue.scalar 2)].length =
      [(("a" : String), MetricValue.scalar 1)].length) ∧
    (∀ i, i < [(("a" : String), MetricValue.scalar 1)].length →
      (([(String.append "avg_" "a", MetricValue.scalar 2)].getD i
          ("", MetricValue.scalar 0)).1 =
        String.append "avg_"
          (([(("a" : String), MetricValue.scalar 1)].getD i
            ("", MetricValue.scalar 0)).1))) :=
  have hthm := c7_results_aggregation
    [("a", MetricValue.scalar 1)]
    [[("a", MetricValue.scalar 3)]]
    [(String.append "avg_" "a", MetricValue.scalar 2)]
    (by norm_num [aggregateFoldResults, optMap, dictGet, aggValues, asScalar,
      asTable])
  ⟨hthm.1, hthm.2.1⟩

/-- A last element is a member. -/
lemma mem_of_getLast?_eq {α : Type} : ∀ (l : List α) (a : α),
    l.getLast? = some a → a ∈ l := by
  intro l
  induction l with
  | nil => intro a h; simp at h
  | cons x l ih =>
    intro a h
    cases l with
    | nil =>
      have hx : x = a := by
        have h0 : ([x] : List α).getLast? = some x := rfl
        rw [h0] at h
        injection h with h2
      rw [hx]
      exact List.mem_cons_self _ _
    | cons y l2 =>
      rw [List.getLast?_cons_cons] at h
      exact List.mem_cons_of_mem _ (ih a h)

/-- In a strictly sorted list, every member is at most the last element. -/
lemma sorted_le_of_getLast? : ∀ (l : List Nat) (L : Nat),
    List.Sorted (· < ·) l → l.getLast? = some L → ∀ v ∈ l, v ≤ L := by
  intro l
  induction l with
  | nil => intro L _ _ v hv; simp at hv
  | cons x l ih =>
    intro L hsort hlast v hv
    cases l with
    | nil =>
      have hx : x = L := by
        have h0 : ([x] : List Nat).getLast? = some x := rfl
        rw [h0] at hlast
        injection hlast with h2
      rcases List.mem_cons.mp hv with rfl | h
      · omega
      · simp at h
    | cons y l2 =>
      rw [List.getLast?_cons_cons] at hlast
      have hsort2 : List.Sorted (· < ·) (y :: l2) :=
        (List.sorted_cons.mp hsort).2
      rcases List.mem_cons.mp hv with rfl | htail
      · have hL : L ∈ y :: l2 := mem_of_getLast?_eq _ _ hlast
        have hxL : v < L := (List.sorted_cons.mp hsort).1 L hL
        omega
      · exact ih L hsort2 hlast v htail

/-- Length of a Python slice that stays inside the list. -/
lemma pySlice_length {α : Type} (l : List α) (a b : Nat) (h1 : a ≤ b)
    (h2 : b ≤ l.length) : (pySlice l a b).length = b - a := by
  rw [pySlice, List.length_drop, List.length_take]
  omega

/-- Rows of a Python slice are rows of the original list. -/
lemma mem_pySlice {α : Type} {l : List α} {a b : Nat} {row : α}
    (h : row ∈ pySlice l a b) : row ∈ l :=
  List.mem_of_mem_take (List.mem_of_mem_drop h)

/-- A dropped event (`some none`) is exactly one that fails the acceptance
test after a successful segment lookup. -/
lemma processEvent_dropped (signals : List (List ℚ)) (stitch : List Nat)
    (lagBin : Int) (hw : Nat) (ev : LabelEvent)
    (hpe : processEvent signals stitch lagBin hw ev = some none) :
    acceptEvent stitch lagBin hw ev = false := by
  cases hnz : nonzeroLtLast stitch (ev.onset / 32) with
  | none => simp [processEvent, hnz] at hpe
  | some r =>
    cases hget : stitch.get? (r + 1) with
    | none =>
      simp only [processEvent, hnz, hget] at hpe
      exact Option.noConfusion hpe
    | some t =>
      simp only [processEvent, hnz, hget] at hpe
      simp only [acceptEvent, hnz, hget]
      split at hpe
      · next hc =>
        rw [decide_eq_true hc]
        rfl
      · next hc => simp at hpe

/-- An accepted event (`some (some _)`) passes the acceptance test and yields
exactly its window and word. -/
lemma processEvent_accepted (signals : List (List ℚ)) (stitch : List Nat)
    (lagBin : Int) (hw : Nat) (ev : LabelEvent) (xw : List (List ℚ) × String)
    (hpe : processEvent signals stitch lagBin hw ev = some (some xw)) :
    acceptEvent stitch lagBin hw ev = true ∧
    xw = (windowOf signals lagBin hw ev, ev.word) := by
  cases hnz : nonzeroLtLast stitch (ev.onset / 32) with
  | none => simp [processEvent, hnz] at hpe
  | some r =>
    cases hget : stitch.get? (r + 1) with
    | none =>
      simp only [processEvent, hnz, hget] at hpe
      exact Option.noConfusion hpe
    | some t =>
      simp only [processEvent, hnz, hget] at hpe
      simp only [acceptEvent, windowOf, hnz, hget]
      split at hpe
      · next hc => simp at hpe
      · next hc =>
        have hxw : xw = (pySlice signals
            ((ev.onset / 32 : Nat) + lagBin - (hw : Int)).toNat
            ((ev.onset / 32 : Nat) + lagBin + (hw : Int)).toNat, ev.word) := by
          injection hpe with h2
          injection h2 with h3
          exact h3.symm
        refine ⟨?_, hxw⟩
        rw [decide_eq_false hc]
        rfl

/-- An accepted event's window has exactly `2 * half_window` rows, each a
signal row of the electrode width. -/
lemma acceptEvent_window_shape (signals : List (List ℚ)) (stitch : List Nat)
    (lagBin : Int) (hw nE : Nat) (ev : LabelEvent)
    (hsort : List.Sorted (· < ·) stitch)
    (hlast : stitch.getLast? = some signals.length)
    (hrows : ∀ row ∈ signals, row.length = nE)
    (hacc : acceptEvent stitch lagBin hw ev = true) :
    (windowOf signals lagBin hw ev).length = 2 * hw ∧
    ∀ row ∈ windowOf signals lagBin hw ev, row.length = nE := by
  cases hnz : nonzeroLtLast stitch (ev.onset / 32) with
  | none =>
    simp only [acceptEvent, hnz] at hacc
    exact Bool.noConfusion hacc
  | some r =>
    cases hget : stitch.get? (r + 1) with
    | none =>
      simp only [acceptEvent, hnz, hget] at hacc
      exact Bool.noConfusion hacc
    | some t =>
      simp only [acceptEvent, hnz, hget] at hacc
      have hc : ¬ (((ev.onset / 32 : Nat) : Int) + lagBin - (hw : Int) <
            ((stitch.getD r 0 : Nat) : Int) ∨
          ((ev.onset / 32 : Nat) : Int) + lagBin + (hw : Int) > (t : Int)) := by
        intro hcon
        rw [decide_eq_true hcon] at hacc
        exact Bool.noConfusion hacc
      push_neg at hc
      obtain ⟨hle, hri⟩ := hc
      have htmem : t ∈ stitch := List.get?_mem hget
      have htle : t ≤ signals.length :=
        sorted_le_of_getLast? stitch signals.length hsort hlast t htmem
      have h0 : (0 : Int) ≤ ((ev.onset / 32 : Nat) : Int) + lagBin - (hw : Int) := by
        have hs0 : (0 : Int) ≤ ((stitch.getD r 0 : Nat) : Int) :=
          Int.natCast_nonneg _
        omega
      have ha : (((ev.onset / 32 : Nat) : Int) + lagBin - (hw : Int)).toNat ≤
          (((ev.onset / 32 : Nat) : Int) + lagBin + (hw : Int)).toNat := by
        omega
      have hb : (((ev.onset / 32 : Nat) : Int) + lagBin + (hw : Int)).toNat ≤
          signals.length := by
        omega
      constructor
      · simp only [windowOf]
        rw [pySlice_length signals _ _ ha hb]
        omega
      · intro row hrow
        simp only [windowOf] at hrow
        exact hrows row (mem_pySlice hrow)

/-- The extraction loop, when it completes, windows exactly the events that
pass the acceptance test, in input order, and drops all others. -/
lemma extractLoop_spec (signals : List (List ℚ)) (stitch : List Nat)
    (lagBin : Int) (hw : Nat) :
    ∀ (evs : List LabelEvent) (x : List (List (List ℚ))) (w : List String),
      extractLoop signals stitch lagBin hw evs = some (x, w) →
      x = (evs.filter (acceptEvent stitch lagBin hw)).map
          (windowOf signals lagBin hw) ∧
      w = (evs.filter (acceptEvent stitch lagBin hw)).map LabelEvent.word := by
  intro evs
  induction evs with
  | nil =>
    intro x w h
    simp only [extractLoop, Option.some.injEq, Prod.mk.injEq] at h
    obtain ⟨hx, hw2⟩ := h
    simp [← hx, ← hw2]
  | cons ev rest ih =>
    intro x w h
    cases hpe : processEvent signals stitch lagBin hw ev with
    | none =>
      simp only [extractLoop, hpe] at h
      exact Option.noConfusion h
    | some o =>
      cases o with
      | none =>
        have hacc := processEvent_dropped signals stitch lagBin hw ev hpe
        have h2 : extractLoop signals stitch lagBin hw rest = some (x, w) := by
          simpa only [extractLoop, hpe] using h
        obtain ⟨hx, hw2⟩ := ih x w h2
        simp [List.filter_cons, hacc, hx, hw2]
      | some xw =>
        obtain ⟨hacc, hxw⟩ :=
          processEvent_accepted signals stitch lagBin hw ev xw hpe
        cases hrec : extractLoop signals stitch lagBin hw rest with
        | none =>
          simp only [extractLoop, hpe, hrec] at h
          exact Option.noConfusion h
        | some pr =>
          obtain ⟨x', w'⟩ := pr
          simp only [extractLoop, hpe, hrec, Option.some.injEq,
            Prod.mk.injEq] at h
          obtain ⟨hx1, hw1⟩ := h
          obtain ⟨hx, hw2⟩ := ih x' w' hrec
          subst hxw
          simp [List.filter_cons, hacc, ← hx1, ← hw1, hx, hw2]

/-- C1 counterexample: an event with onset 0 (bin index 0) is neither
windowed nor silently dropped — the extraction raises (`none`) — although
with `lag = 32`, `half_window = 1` its claimed edges `[0, 2)` lie inside the
containing segment `[0, 4)` (the last two conjuncts state the claim's
acceptance inequalities at this input). -/
theorem c1_counterexample :
    extract_signal_from_fold [[1], [1], [1], [1]] [0, 4] 32 1
      [LabelEvent.mk 0 "a"] = none ∧
    (0 : Int) ≤ ((0 / 32 : Nat) : Int) + Int.fdiv 32 32 - 1 ∧
    ((0 / 32 : Nat) : Int) + Int.fdiv 32 32 + 1 ≤ 4 := by
  refine ⟨by decide, by decide, by decide⟩

/-- C1 (amended): whenever `extract_signal_from_fold` completes without
raising — given the stitch invariant (strictly increasing, ending at the
signal length) and uniform signal rows — it emits windows exactly for the
events passing the in-segment edge test (the segment located by the code's
strictly-below lookup), paired with their words in input order; every
emitted window is exactly `2 * half_window` signal rows of electrode width;
every other event is dropped; and at least one window was accepted. As
stated the claim is false: a bin-index-0 event, a bin index beyond the last
boundary, or a fold with no accepted window raises instead of silently
dropping (see the counterexample). -/
theorem c1_extract_characterization (signals : List (List ℚ))
    (stitch : List Nat) (lag : Int) (hw nE : Nat) (evs : List LabelEvent)
    (x : List (List (List ℚ))) (w : List String)
    (hsort : List.Sorted (· < ·) stitch)
    (hlast : stitch.getLast? = some signals.length)
    (hrows : ∀ row ∈ signals, row.length = nE)
    (hx : extract_signal_from_fold signals stitch lag hw evs = some (x, w)) :
    x = (evs.filter (acceptEvent stitch (Int.fdiv lag 32) hw)).map
        (windowOf signals (Int.fdiv lag 32) hw) ∧
    w = (evs.filter (acceptEvent stitch (Int.fdiv lag 32) hw)).map
        LabelEvent.word ∧
    (∀ m ∈ x, m.length = 2 * hw ∧ ∀ row ∈ m, row.length = nE) ∧
    x ≠ [] := by
  have hloop : extractLoop signals stitch (Int.fdiv lag 32) hw evs =
      some (x, w) ∧ npStackOk x = true := by
    cases hl : extractLoop signals stitch (Int.fdiv lag 32) hw evs with
    | none =>
      simp only [extract_signal_from_fold, hl] at hx
      exact Option.noConfusion hx
    | some pr =>
      obtain ⟨x2, w2⟩ := pr
      simp only [extract_signal_from_fold, hl] at hx
      split at hx
      · next hs =>
        have hpair := Option.some.inj hx
        rw [Prod.mk.injEq] at hpair
        obtain ⟨hx2, hw2⟩ := hpair
        rw [hx2] at hs
        rw [hx2, hw2]
        exact ⟨rfl, hs⟩
      · next hs => exact Option.noConfusion hx
  obtain ⟨hl, hstack⟩ := hloop
  obtain ⟨hxeq, hweq⟩ :=
    extractLoop_spec signals stitch (Int.fdiv lag 32) hw evs x w hl
  refine ⟨hxeq, hweq, ?_, ?_⟩
  · intro m hm
    rw [hxeq] at hm
    obtain ⟨ev2, hev2, hmw⟩ := List.mem_map.mp hm
    have hacc : acceptEvent stitch (Int.fdiv lag 32) hw ev2 = true :=
      List.of_mem_filter hev2
    have hshape := acceptEvent_window_shape signals stitch (Int.fdiv lag 32)
      hw nE ev2 hsort hlast hrows hacc
    rw [← hmw]
    exact hshape
  · intro hnil
    rw [hnil] at hstack
    exact Bool.noConfusion hstack

/-- Witness for the amended C1: one event at bin 3 with `half_window = 1`
inside segment `[0, 4)`; extraction succeeds and the characterization holds. -/
theorem c1_extract_characterization_witness :
    ([[[(3 : ℚ)], [4]]] : List (List (List ℚ))) =
      ([LabelEvent.mk 96 "hi"].filter (acceptEvent [0, 4] (Int.fdiv 0 32) 1)).map
        (windowOf [[(1 : ℚ)], [2], [3], [4]] (Int.fdiv 0 32) 1) ∧
    (["hi"] : List String) =
      ([LabelEvent.mk 96 "hi"].filter (acceptEvent [0, 4] (Int.fdiv 0 32) 1)).map
        LabelEvent.word ∧
    (∀ m ∈ ([[[(3 : ℚ)], [4]]] : List (List (List ℚ))),
      m.length = 2 * 1 ∧ ∀ row ∈ m, row.length = 1) ∧
    ([[[(3 : ℚ)], [4]]] : List (List (List ℚ))) ≠ [] :=
  c1_extract_characterization [[(1 : ℚ)], [2], [3], [4]] [0, 4] 0 1 1
    [LabelEvent.mk 96 "hi"] [[[3], [4]]] ["hi"]
    (by decide) (by decide) (by decide) (by decide)
